import Mathlib

/-!
Shallow embedding of `lttngpack.py` (package-version tracking across
distributions) together with theorems about the claims of its design
specification.

Modelling conventions:
* Python lists become Lean `List`s; in-place mutation of a bucket inside a
  list becomes a functional update of that list element.
* The external `packaging.version` library is abstracted: a parsed version
  keeps the raw string it was parsed from, and rendering returns it.  No
  claim depends on the library's normalisation internals.
* A Python function that can raise on some input is embedded with `Except`
  (`Except.error ()` marks the raised exception).
* `_DistroVersion.pkgs` may contain `None` entries in the Buildroot builder,
  so a package slot is embedded as `Option Pkg`.
-/

/-- Abstraction of the parsed version value produced by the external
`packaging.version.parse`; it keeps the raw input string. -/
structure ParsedVersion where
  raw : String
deriving DecidableEq

/-- Abstraction of `packaging.version.parse` (external library). -/
def parseVersion (s : String) : ParsedVersion := ⟨s⟩

/-- Abstraction of `str(version)` on a parsed version (external library). -/
def versionStr (v : ParsedVersion) : String := v.raw

/-- The `_Pkg` record of the source: a package name and a parsed version. -/
structure Pkg where
  name : String
  version : ParsedVersion
deriving DecidableEq

/-- The `_DistroVersion` record of the source: a version label and the list
of package slots.  A slot is an `Option` because the Buildroot builder
appends possibly-`None` entries. -/
structure DistroVersion where
  version : String
  pkgs : List (Option Pkg)
deriving DecidableEq

/-- The `_Distro` record of the source: a display name and its versions. -/
structure Distro where
  name : String
  versions : List DistroVersion
deriving DecidableEq

/-- A Repology repository record, carrying the fields the source reads:
`repo`, `visiblename` and `version`. -/
structure RepoRecord where
  repo : String
  visiblename : String
  version : String
deriving DecidableEq

/-- The package built from a repository record in
`_distro_versions_from_repology_repos`:
`_Pkg(repo['visiblename'], packaging.version.parse(repo['version']))`. -/
def mkPkg (r : RepoRecord) : Pkg :=
  { name := r.visiblename, version := parseVersion r.version }

/-- Append a package slot to the last bucket whose label equals `v`.
This embeds the source's scan
`for dv in distro_versions: if dv.version == repo_version: distro_version = dv`
(which keeps the last match) followed by the in-place
`distro_version.pkgs.append(...)`. -/
def updateLast (dvs : List DistroVersion) (v : String) (p : Option Pkg) :
    List DistroVersion :=
  match dvs with
  | [] => []
  | dv :: rest =>
    if rest.any (fun d => d.version == v) then dv :: updateLast rest v p
    else if dv.version == v then
      { dv with pkgs := dv.pkgs ++ [p] } :: rest
    else dv :: updateLast rest v p

/-- One iteration of the record loop of
`_distro_versions_from_repology_repos`: apply the matcher, skip on `None`,
otherwise find-or-create the bucket for the label and append the record's
package to it. -/
def rvStep (f : RepoRecord → Option String) (dvs : List DistroVersion)
    (r : RepoRecord) : List DistroVersion :=
  match f r with
  | none => dvs
  | some v =>
    if dvs.any (fun d => d.version == v) then updateLast dvs v (some (mkPkg r))
    else dvs ++ [{ version := v, pkgs := [some (mkPkg r)] }]

/-- `_distro_versions_from_repology_repos`: fold the record loop over the
input records, starting from an empty bucket list. -/
def distroVersionsFromRepologyRepos (repos : List RepoRecord)
    (f : RepoRecord → Option String) : List DistroVersion :=
  repos.foldl (rvStep f) []

/-- Character-list prefix test (used to embed anchored regex matching). -/
def startsWithList : List Char → List Char → Bool
  | [], _ => true
  | _ :: _, [] => false
  | p :: ps, c :: cs => p == c && startsWithList ps cs

/-- The `repo_version` closure of `_debian_distro`:
`re.match(r'debian_(.+)', repo['repo'])`, rejecting the `sid` channel.
The capture group `(.+)` takes everything after `debian_` up to the first
newline and must be non-empty. -/
def debianRepoVersion (r : RepoRecord) : Option String :=
  if startsWithList "debian_".data r.repo.data then
    let g1 := (r.repo.data.drop 7).takeWhile (fun c => c ≠ '\n')
    if g1.isEmpty then none
    else if String.mk g1 = "sid" then none
    else some (String.mk g1)
  else none

/-- `_debian_distro`: the Debian distribution built from the records. -/
def debianDistro (repos : List RepoRecord) : Distro :=
  { name := "Debian",
    versions := distroVersionsFromRepologyRepos repos debianRepoVersion }

/-- C8: on the two debian records, the Debian builder produces exactly one
DistributionVersion, labeled "11" and holding the 2.13.0 package, and no
entry labeled "sid". -/
theorem c8_debian_sid_excluded :
    debianDistro [{ repo := "debian_11", visiblename := "lttng-tools", version := "2.13.0" },
                  { repo := "debian_sid", visiblename := "lttng-tools", version := "2.14.0" }] =
      { name := "Debian",
        versions := [{ version := "11",
                       pkgs := [some { name := "lttng-tools",
                                       version := parseVersion "2.13.0" }] }] } ∧
    (debianDistro [{ repo := "debian_11", visiblename := "lttng-tools", version := "2.13.0" },
                   { repo := "debian_sid", visiblename := "lttng-tools", version := "2.14.0" }]).versions.map
        (fun dv => dv.version) = ["11"] ∧
    "sid" ∉ (debianDistro [{ repo := "debian_11", visiblename := "lttng-tools", version := "2.13.0" },
                           { repo := "debian_sid", visiblename := "lttng-tools", version := "2.14.0" }]).versions.map
        (fun dv => dv.version) := by
  refine ⟨by decide, by decide, by decide⟩

/-! ## Buildroot quarterly-cadence probing (`_buildroot_distro`)

The probing loop is parameterised by a fetch oracle
`oracle : String → String → Option Pkg` giving, for a package name and a
Buildroot branch label, either the package parsed from the recipe file or
`none` when the branch reports an invalid reference ("does not exist
upstream").  The `while True` loop is embedded with explicit fuel; `none`
as overall result marks fuel exhaustion. -/

/-- The quarterly step of `_buildroot_distro`:
`month += 3; if month > 11: yr += 1; month = 2`. -/
def brStep (s : Nat × Nat) : Nat × Nat :=
  let month := s.2 + 3
  if month > 11 then (s.1 + 1, 2) else (s.1, month)

/-- Zero-padded two-digit rendering of the month, `f'{month:02}'`. -/
def pad2 (n : Nat) : String :=
  if n < 10 then "0" ++ toString n else toString n

/-- The candidate label `f'{yr}.{month:02}'` for a loop state. -/
def brVersionStr (s : Nat × Nat) : String :=
  toString s.1 ++ "." ++ pad2 s.2

/-- Iterate the quarterly step `i` times from a state. -/
def brIter : Nat → Nat × Nat → Nat × Nat
  | 0, s => s
  | Nat.succ n, s => brIter n (brStep s)

/-- The i-th probed candidate label; the loop starts at `yr = 2019`,
`month = 2`. -/
def brCandidate (i : Nat) : String := brVersionStr (brIter i (2019, 2))

/-- The `distro_version` closure of `_buildroot_distro`: probe the three
product recipes for one candidate; give up (`none`) when the primary
`lttng-tools` recipe is absent, otherwise append the three package slots in
primary/secondary/tertiary order, keeping `none` placeholders. -/
def brDistroVersion (oracle : String → String → Option Pkg) (v : String) :
    Option DistroVersion :=
  match oracle "lttng-tools" v with
  | none => none
  | some toolsPkg =>
    some { version := v,
           pkgs := [some toolsPkg, oracle "lttng-libust" v,
                    oracle "lttng-modules" v] }

/-- The `while True` probing loop of `_buildroot_distro`, with fuel. -/
def brLoop (oracle : String → String → Option Pkg) :
    Nat → Nat × Nat → List DistroVersion → Option (List DistroVersion)
  | 0, _, _ => none
  | Nat.succ fuel, s, acc =>
    match brDistroVersion oracle (brVersionStr s) with
    | none => some acc
    | some dv => brLoop oracle fuel (brStep s) (acc ++ [dv])

/-- `_buildroot_distro` itself: run the loop from `(2019, 2)` and wrap the
collected versions as the Buildroot distribution. -/
def buildrootDistro (oracle : String → String → Option Pkg) (fuel : Nat) :
    Option Distro :=
  (brLoop oracle fuel (2019, 2) []).map
    (fun vs => { name := "Buildroot", versions := vs })

/-- One-step unfolding of the probing loop. -/
theorem brLoop_succ (oracle : String → String → Option Pkg) (fuel : Nat)
    (s : Nat × Nat) (acc : List DistroVersion) :
    brLoop oracle (fuel + 1) s acc =
      match brDistroVersion oracle (brVersionStr s) with
      | none => some acc
      | some dv => brLoop oracle fuel (brStep s) (acc ++ [dv]) := rfl

/-- If the primary recipe is absent exactly at candidate `k` (relative to
state `s`), the loop stops there having collected one entry per earlier
candidate, in candidate order. -/
theorem brLoop_of_first_absent (oracle : String → String → Option Pkg) :
    ∀ (k : Nat) (s : Nat × Nat) (acc : List DistroVersion),
      (∀ i, i < k →
        (oracle "lttng-tools" (brVersionStr (brIter i s))).isSome = true) →
      oracle "lttng-tools" (brVersionStr (brIter k s)) = none →
      ∃ l, brLoop oracle (k + 1) s acc = some (acc ++ l) ∧
        l.map (fun dv => dv.version) =
          (List.range k).map (fun i => brVersionStr (brIter i s)) := by
  intro k
  induction k with
  | zero =>
    intro s acc _ habs
    refine ⟨[], ?_, by simp⟩
    have habs' : oracle "lttng-tools" (brVersionStr s) = none := habs
    simp [brLoop, brDistroVersion, habs']
  | succ k ih =>
    intro s acc hpres habs
    have h0 := hpres 0 (Nat.succ_pos k)
    obtain ⟨p, hp⟩ := Option.isSome_iff_exists.mp h0
    have hp' : oracle "lttng-tools" (brVersionStr s) = some p := hp
    have hbdv : brDistroVersion oracle (brVersionStr s) =
        some (DistroVersion.mk (brVersionStr s)
          [some p, oracle "lttng-libust" (brVersionStr s),
           oracle "lttng-modules" (brVersionStr s)]) := by
      simp [brDistroVersion, hp']
    obtain ⟨l, hl, hlm⟩ := ih (brStep s)
      (acc ++ [DistroVersion.mk (brVersionStr s)
        [some p, oracle "lttng-libust" (brVersionStr s),
         oracle "lttng-modules" (brVersionStr s)]])
      (fun i hi => hpres (i + 1) (Nat.succ_lt_succ hi)) habs
    refine ⟨DistroVersion.mk (brVersionStr s)
        [some p, oracle "lttng-libust" (brVersionStr s),
         oracle "lttng-modules" (brVersionStr s)] :: l, ?_, ?_⟩
    · rw [brLoop_succ, hbdv]
      show brLoop oracle (k + 1) (brStep s) _ = _
      rw [hl]
      simp
    · simp only [List.map_cons, hlm, List.range_succ_eq_map, List.map_map]
      rfl

/-- If the primary recipe is absent at candidate `k` (relative to state
`s`), fuel `k + 1` always suffices for the loop to stop via its break,
whatever the earlier candidates or the secondary recipes report. -/
theorem brLoop_halts (oracle : String → String → Option Pkg) :
    ∀ (k : Nat) (s : Nat × Nat) (acc : List DistroVersion),
      oracle "lttng-tools" (brVersionStr (brIter k s)) = none →
      (brLoop oracle (k + 1) s acc).isSome = true := by
  intro k
  induction k with
  | zero =>
    intro s acc habs
    have habs' : oracle "lttng-tools" (brVersionStr s) = none := habs
    simp [brLoop, brDistroVersion, habs']
  | succ k ih =>
    intro s acc habs
    rw [brLoop_succ]
    cases htools : oracle "lttng-tools" (brVersionStr s) with
    | none => simp [brDistroVersion, htools]
    | some p =>
      have hbdv : brDistroVersion oracle (brVersionStr s) =
          some (DistroVersion.mk (brVersionStr s)
            [some p, oracle "lttng-libust" (brVersionStr s),
             oracle "lttng-modules" (brVersionStr s)]) := by
        simp [brDistroVersion, htools]
      rw [hbdv]
      exact ih (brStep s) _ habs

/-- The sequence of version labels collected by the loop, and whether it
halts, depend only on what the oracle answers for the primary
`lttng-tools` recipe. -/
theorem brLoop_primary_congr (oracle oracle₂ : String → String → Option Pkg)
    (h : ∀ v, oracle₂ "lttng-tools" v = oracle "lttng-tools" v) :
    ∀ (fuel : Nat) (s : Nat × Nat) (acc acc₂ : List DistroVersion),
      acc.map (fun dv => dv.version) = acc₂.map (fun dv => dv.version) →
      (brLoop oracle₂ fuel s acc₂).map (List.map (fun dv => dv.version)) =
        (brLoop oracle fuel s acc).map (List.map (fun dv => dv.version)) := by
  intro fuel
  induction fuel with
  | zero => intro s acc acc₂ _; rfl
  | succ fuel ih =>
    intro s acc acc₂ hacc
    rw [brLoop_succ, brLoop_succ]
    cases htools : oracle "lttng-tools" (brVersionStr s) with
    | none =>
      have h2 : oracle₂ "lttng-tools" (brVersionStr s) = none :=
        (h (brVersionStr s)).trans htools
      simp [brDistroVersion, htools, h2, hacc]
    | some p =>
      have h2 : oracle₂ "lttng-tools" (brVersionStr s) = some p :=
        (h (brVersionStr s)).trans htools
      have hbdv : brDistroVersion oracle (brVersionStr s) =
          some (DistroVersion.mk (brVersionStr s)
            [some p, oracle "lttng-libust" (brVersionStr s),
             oracle "lttng-modules" (brVersionStr s)]) := by
        simp [brDistroVersion, htools]
      have hbdv2 : brDistroVersion oracle₂ (brVersionStr s) =
          some (DistroVersion.mk (brVersionStr s)
            [some p, oracle₂ "lttng-libust" (brVersionStr s),
             oracle₂ "lttng-modules" (brVersionStr s)]) := by
        simp [brDistroVersion, h2]
      rw [hbdv, hbdv2]
      show (brLoop oracle₂ fuel (brStep s) _).map _ = (brLoop oracle fuel (brStep s) _).map _
      exact ih (brStep s) _ _ (by simp [hacc])

/-- C2: the probe sequence starts at 2019.02, steps quarterly with the year
wrap 2019.11 → 2020.02, and an oracle whose primary recipe first reports
absence on the 5th candidate yields exactly the 4 earlier candidates, in
order. -/
theorem c2_buildroot_four_candidates (oracle : String → String → Option Pkg)
    (hpres : ∀ i, i < 4 →
      (oracle "lttng-tools" (brCandidate i)).isSome = true)
    (habs : oracle "lttng-tools" (brCandidate 4) = none) :
    brCandidate 0 = "2019.02" ∧ brCandidate 3 = "2019.11" ∧
    brCandidate 4 = "2020.02" ∧
    (buildrootDistro oracle 5).map
        (fun d => d.versions.map (fun dv => dv.version)) =
      some [brCandidate 0, brCandidate 1, brCandidate 2, brCandidate 3] ∧
    (buildrootDistro oracle 5).map (fun d => d.versions.length) = some 4 := by
  obtain ⟨l, hl, hlm⟩ :=
    brLoop_of_first_absent oracle 4 (2019, 2) [] hpres habs
  have hrange : (List.range 4).map (fun i => brVersionStr (brIter i (2019, 2))) =
      [brCandidate 0, brCandidate 1, brCandidate 2, brCandidate 3] := by
    rfl
  refine ⟨by decide, by decide, by decide, ?_, ?_⟩
  · simp [buildrootDistro, hl, hlm, hrange]
  · have hlen : l.length = 4 := by
      have := congrArg List.length hlm
      simpa using this
    simp [buildrootDistro, hl, hlen]

/-- Concrete fetch oracle for the C2 witness: the primary recipe exists on
the first four candidates only; everything else is absent. -/
def brOracleW : String → String → Option Pkg := fun n v =>
  if n == "lttng-tools" &&
      (v == "2019.02" || v == "2019.05" || v == "2019.08" || v == "2019.11")
  then some { name := "lttng-tools", version := parseVersion "2.13.0" }
  else none

/-- Witness for C2 at the concrete oracle `brOracleW`. -/
theorem c2_buildroot_four_candidates_witness :
    brCandidate 0 = "2019.02" ∧ brCandidate 3 = "2019.11" ∧
    brCandidate 4 = "2020.02" ∧
    (buildrootDistro brOracleW 5).map
        (fun d => d.versions.map (fun dv => dv.version)) =
      some [brCandidate 0, brCandidate 1, brCandidate 2, brCandidate 3] ∧
    (buildrootDistro brOracleW 5).map (fun d => d.versions.length) = some 4 :=
  c2_buildroot_four_candidates brOracleW (by decide) (by decide)

/-- C3: when the oracle reports the primary recipe absent at some candidate
`k`, the probing loop halts (fuel `k + 1` suffices), and both halting and
the collected candidate labels are independent of what the oracle answers
for the secondary products: any oracle agreeing on `lttng-tools` produces
the same labels, so a missing secondary recipe never stops or skips the
sequence. -/
theorem c3_buildroot_terminates (oracle : String → String → Option Pkg)
    (k : Nat) (habs : oracle "lttng-tools" (brCandidate k) = none) :
    (brLoop oracle (k + 1) (2019, 2) []).isSome = true ∧
    ∀ (oracle₂ : String → String → Option Pkg) (fuel : Nat),
      (∀ v, oracle₂ "lttng-tools" v = oracle "lttng-tools" v) →
      (brLoop oracle₂ fuel (2019, 2) []).map
          (List.map (fun dv => dv.version)) =
        (brLoop oracle fuel (2019, 2) []).map
          (List.map (fun dv => dv.version)) := by
  refine ⟨brLoop_halts oracle k (2019, 2) [] habs, ?_⟩
  intro oracle₂ fuel hagree
  exact brLoop_primary_congr oracle oracle₂ hagree fuel (2019, 2) [] [] rfl

/-- Witness for C3: the everywhere-absent oracle halts with fuel 1. -/
theorem c3_buildroot_terminates_witness :
    (brLoop (fun _ _ => none) (0 + 1) (2019, 2) []).isSome = true :=
  (c3_buildroot_terminates (fun _ _ => none) 0 rfl).1

/-- C6: at a candidate where the primary recipe exists but the secondary
`lttng-libust` recipe is absent, the builder still produces a
DistributionVersion with exactly three package slots in
primary/secondary/tertiary order, the absent product kept as a `none`
placeholder. -/
theorem c6_buildroot_placeholder (oracle : String → String → Option Pkg)
    (v : String) (p : Pkg)
    (htools : oracle "lttng-tools" v = some p)
    (hust : oracle "lttng-libust" v = none) :
    brDistroVersion oracle v =
      some (DistroVersion.mk v [some p, none, oracle "lttng-modules" v]) ∧
    (brDistroVersion oracle v).map (fun dv => dv.pkgs.length) = some 3 := by
  have : brDistroVersion oracle v =
      some (DistroVersion.mk v [some p, none, oracle "lttng-modules" v]) := by
    simp [brDistroVersion, htools, hust]
  exact ⟨this, by rw [this]; rfl⟩

/-- Concrete fetch oracle for the C6 witness: only the primary recipe
exists. -/
def brOracleW6 : String → String → Option Pkg := fun n _ =>
  if n == "lttng-tools"
  then some { name := "lttng-tools", version := parseVersion "2.13.0" }
  else none

/-- Witness for C6 at the concrete oracle `brOracleW6`. -/
theorem c6_buildroot_placeholder_witness :
    brDistroVersion brOracleW6 "2019.02" =
      some (DistroVersion.mk "2019.02"
        [some { name := "lttng-tools", version := parseVersion "2.13.0" },
         none, brOracleW6 "lttng-modules" "2019.02"]) ∧
    (brDistroVersion brOracleW6 "2019.02").map
        (fun dv => dv.pkgs.length) = some 3 :=
  c6_buildroot_placeholder brOracleW6 "2019.02"
    { name := "lttng-tools", version := parseVersion "2.13.0" } rfl rfl

/-! ## Idempotence of the record-filtering build (C9)

The record-filtering builders receive the shared, combined repository
record list.  To express that a build leaves that shared input unchanged,
the builder is embedded as a state computation whose state is the shared
list: it reads the records and writes nothing, exactly as the Python
function only iterates over `repology_repos`. -/

/-- A record-filtering distribution build as a computation over the shared
record list: read the records, bucket them, leave the state as found. -/
def buildDistroS (name : String) (f : RepoRecord → Option String) :
    StateM (List RepoRecord) Distro := do
  let repos ← get
  pure { name := name, versions := distroVersionsFromRepologyRepos repos f }

/-- C9: building a distribution twice with the same record-filtering
builder yields structurally identical Distribution values, and each build
leaves the shared input record list unchanged. -/
theorem c9_build_idempotent (name : String) (f : RepoRecord → Option String)
    (repos : List RepoRecord) :
    ((buildDistroS name f).run repos).2 = repos ∧
    ((buildDistroS name f).run (((buildDistroS name f).run repos).2)).2 =
      repos ∧
    ((buildDistroS name f).run (((buildDistroS name f).run repos).2)).1 =
      ((buildDistroS name f).run repos).1 :=
  ⟨rfl, rfl, rfl⟩

/-! ## Specification-level characterisation of the bucketing (C1, C10)

`bucketize` restates the filter-and-bucket routine the way the
specification describes it: one bucket per distinct version label, labels
in order of the first record that introduced them, each bucket holding the
packages of its matching records in input order. -/

/-- The version labels produced by the matcher, keeping only the first
occurrence of each label, in input order. -/
def firstOccurrences (l : List String) : List String :=
  l.foldl (fun acc v => if acc.contains v then acc else acc ++ [v]) []

/-- The bucket for label `v`: the packages of all records matched to `v`,
in input order. -/
def bucketOf (repos : List RepoRecord) (f : RepoRecord → Option String)
    (v : String) : DistroVersion :=
  { version := v,
    pkgs := (repos.filter (fun r => f r == some v)).map
      (fun r => some (mkPkg r)) }

/-- Specification-level result of the filter-and-bucket routine. -/
def bucketize (repos : List RepoRecord) (f : RepoRecord → Option String) :
    List DistroVersion :=
  (firstOccurrences (repos.filterMap f)).map (bucketOf repos f)

theorem firstOccurrences_append_singleton (l : List String) (v : String) :
    firstOccurrences (l ++ [v]) =
      if (firstOccurrences l).contains v then firstOccurrences l
      else firstOccurrences l ++ [v] := by
  unfold firstOccurrences
  rw [List.foldl_append]
  rfl

theorem mem_firstOccurrences_aux (l : List String) (v : String) :
    ∀ acc : List String, (v ∈ l.foldl
        (fun (acc : List String) v => if acc.contains v then acc
          else acc ++ [v]) acc ↔
      v ∈ acc ∨ v ∈ l) := by
  induction l with
  | nil => intro acc; simp
  | cons x t ih =>
    intro acc
    rw [List.foldl_cons, ih]
    by_cases hx : acc.contains x
    · have hxm : x ∈ acc := by simpa using hx
      simp only [hx, if_pos]
      constructor
      · rintro (h | h)
        · exact Or.inl h
        · exact Or.inr (List.mem_cons_of_mem x h)
      · rintro (h | h)
        · exact Or.inl h
        · rcases List.mem_cons.mp h with h | h
          · exact Or.inl (h ▸ hxm)
          · exact Or.inr h
    · simp only [hx, if_neg, Bool.false_eq_true, not_false_iff]
      constructor
      · rintro (h | h)
        · rcases List.mem_append.mp h with h | h
          · exact Or.inl h
          · exact Or.inr (List.mem_cons.mpr (Or.inl (by simpa using h)))
        · exact Or.inr (List.mem_cons_of_mem x h)
      · rintro (h | h)
        · exact Or.inl (List.mem_append.mpr (Or.inl h))
        · rcases List.mem_cons.mp h with h | h
          · exact Or.inl (List.mem_append.mpr (Or.inr (by simp [h])))
          · exact Or.inr h

theorem mem_firstOccurrences (l : List String) (v : String) :
    v ∈ firstOccurrences l ↔ v ∈ l := by
  unfold firstOccurrences
  rw [mem_firstOccurrences_aux]
  simp

theorem firstOccurrences_nodup_aux (l : List String) :
    ∀ acc : List String, acc.Nodup →
      (l.foldl (fun (acc : List String) v => if acc.contains v then acc
        else acc ++ [v]) acc).Nodup := by
  induction l with
  | nil => intro acc h; exact h
  | cons x t ih =>
    intro acc h
    rw [List.foldl_cons]
    by_cases hx : acc.contains x
    · simp only [hx, if_pos]
      exact ih acc h
    · simp only [hx, if_neg, Bool.false_eq_true, not_false_iff]
      refine ih _ ?_
      refine List.Nodup.append h (List.nodup_singleton x) ?_
      intro a ha hb
      rcases List.mem_singleton.mp hb with rfl
      exact absurd (by simpa using ha) (by simpa using hx)

theorem firstOccurrences_nodup (l : List String) :
    (firstOccurrences l).Nodup :=
  firstOccurrences_nodup_aux l [] List.nodup_nil

theorem any_version_eq (dvs : List DistroVersion) (v : String) :
    dvs.any (fun d => d.version == v) = true ↔
      v ∈ dvs.map (fun d => d.version) := by
  rw [List.any_eq_true]
  constructor
  · rintro ⟨d, hd, hbeq⟩
    exact List.mem_map.mpr ⟨d, hd, beq_iff_eq.mp hbeq⟩
  · intro h
    rcases List.mem_map.mp h with ⟨d, hd, hdv⟩
    exact ⟨d, hd, beq_iff_eq.mpr hdv⟩

theorem updateLast_of_not_mem (v : String) (p : Option Pkg) :
    ∀ dvs : List DistroVersion,
      dvs.any (fun d => d.version == v) = false → updateLast dvs v p = dvs := by
  intro dvs
  induction dvs with
  | nil => intro _; rfl
  | cons dv rest ih =>
    intro h
    rw [List.any_cons, Bool.or_eq_false_iff] at h
    unfold updateLast
    rw [h.2, if_neg (by simp), h.1, if_neg (by simp), ih h.2]

theorem updateLast_eq_map (v : String) (p : Option Pkg) :
    ∀ dvs : List DistroVersion,
      (dvs.map (fun d => d.version)).Nodup →
      updateLast dvs v p =
        dvs.map (fun d => if d.version == v then
          { d with pkgs := d.pkgs ++ [p] } else d) := by
  intro dvs
  induction dvs with
  | nil => intro _; rfl
  | cons dv rest ih =>
    intro hnd
    rw [List.map_cons, List.nodup_cons] at hnd
    unfold updateLast
    by_cases hany : rest.any (fun d => d.version == v) = true
    · have hvrest : v ∈ rest.map (fun d => d.version) :=
        (any_version_eq rest v).mp hany
      have hdv : (dv.version == v) = false := by
        simp only [beq_eq_false_iff_ne, ne_eq]
        intro hEq
        exact hnd.1 (hEq ▸ hvrest)
      rw [if_pos hany, List.map_cons, hdv, if_neg (by simp), ih hnd.2]
    · have hrest : rest.map (fun d => if d.version == v then
          { d with pkgs := d.pkgs ++ [p] } else d) = rest := by
        have h1 : ∀ d ∈ rest,
            (fun d => if d.version == v then
              { d with pkgs := d.pkgs ++ [p] } else d) d = id d := by
          intro d hd
          have : (d.version == v) = false := by
            rw [Bool.eq_false_iff]
            intro hdv
            exact hany (List.any_eq_true.mpr ⟨d, hd, hdv⟩)
          simp [this]
        rw [List.map_congr_left h1, List.map_id]
      rw [if_neg hany, List.map_cons]
      by_cases hdv : (dv.version == v) = true
      · rw [if_pos hdv, hdv, if_pos rfl, hrest]
      · rw [Bool.not_eq_true] at hdv
        rw [if_neg (by simp [hdv]), hdv, if_neg (by simp),
          updateLast_of_not_mem v p rest (Bool.not_eq_true _ ▸ hany), hrest]

theorem bucketOf_version (repos : List RepoRecord)
    (f : RepoRecord → Option String) (v : String) :
    (bucketOf repos f v).version = v := rfl

theorem bucketize_version_map (repos : List RepoRecord)
    (f : RepoRecord → Option String) :
    (bucketize repos f).map (fun d => d.version) =
      firstOccurrences (repos.filterMap f) := by
  unfold bucketize
  rw [List.map_map]
  exact List.map_id _

theorem bucketOf_append (repos : List RepoRecord) (r : RepoRecord)
    (f : RepoRecord → Option String) (v : String) :
    bucketOf (repos ++ [r]) f v =
      if f r == some v then
        { version := v,
          pkgs := (bucketOf repos f v).pkgs ++ [some (mkPkg r)] }
      else bucketOf repos f v := by
  unfold bucketOf
  rw [List.filter_append]
  by_cases h : (f r == some v) = true
  · rw [if_pos h]
    simp [List.filter, h]
  · rw [if_neg h]
    simp only [Bool.not_eq_true] at h
    simp [List.filter, h]

theorem distroVersions_eq_bucketize (f : RepoRecord → Option String) :
    ∀ repos : List RepoRecord,
      distroVersionsFromRepologyRepos repos f = bucketize repos f := by
  intro repos
  induction repos using List.reverseRecOn with
  | nil => rfl
  | append_singleton repos r ih =>
    have hfold : distroVersionsFromRepologyRepos (repos ++ [r]) f =
        rvStep f (distroVersionsFromRepologyRepos repos f) r := by
      unfold distroVersionsFromRepologyRepos
      rw [List.foldl_append, List.foldl_cons, List.foldl_nil]
    rw [hfold, ih]
    cases hfr : f r with
    | none =>
      have hfm : (repos ++ [r]).filterMap f = repos.filterMap f := by
        rw [List.filterMap_append]
        simp [List.filterMap_cons, hfr]
      have hstep : rvStep f (bucketize repos f) r = bucketize repos f := by
        unfold rvStep
        rw [hfr]
      rw [hstep]
      unfold bucketize
      rw [hfm]
      apply List.map_congr_left
      intro w _
      rw [bucketOf_append, if_neg (by simp [hfr])]
    | some v₀ =>
      have hfm : (repos ++ [r]).filterMap f =
          repos.filterMap f ++ [v₀] := by
        rw [List.filterMap_append]
        simp [List.filterMap_cons, hfr]
      have hnd : ((bucketize repos f).map (fun d => d.version)).Nodup := by
        rw [bucketize_version_map]
        exact firstOccurrences_nodup _
      by_cases hmem : v₀ ∈ repos.filterMap f
      · have hany : (bucketize repos f).any
            (fun d => d.version == v₀) = true := by
          rw [any_version_eq, bucketize_version_map]
          exact (mem_firstOccurrences _ _).mpr hmem
        have hstep : rvStep f (bucketize repos f) r =
            updateLast (bucketize repos f) v₀ (some (mkPkg r)) := by
          unfold rvStep
          rw [hfr]
          simp [hany]
        rw [hstep, updateLast_eq_map v₀ (some (mkPkg r)) _ hnd]
        have hlab : firstOccurrences ((repos ++ [r]).filterMap f) =
            firstOccurrences (repos.filterMap f) := by
          rw [hfm, firstOccurrences_append_singleton,
            if_pos (List.elem_iff.mpr ((mem_firstOccurrences _ _).mpr hmem))]
        unfold bucketize
        rw [hlab, List.map_map]
        apply List.map_congr_left
        intro w _
        by_cases hwv : w = v₀
        · subst hwv
          simp [Function.comp_apply, bucketOf_append, hfr, bucketOf]
        · simp [Function.comp_apply, bucketOf_append, hfr, bucketOf,
            hwv, Ne.symm hwv]
      · have hany : (bucketize repos f).any
            (fun d => d.version == v₀) = false := by
          rw [Bool.eq_false_iff]
          intro h
          rw [any_version_eq, bucketize_version_map,
            mem_firstOccurrences] at h
          exact hmem h
        have hstep : rvStep f (bucketize repos f) r = bucketize repos f ++
            [{ version := v₀, pkgs := [some (mkPkg r)] }] := by
          unfold rvStep
          rw [hfr]
          simp [hany]
        rw [hstep]
        have hlab : firstOccurrences ((repos ++ [r]).filterMap f) =
            firstOccurrences (repos.filterMap f) ++ [v₀] := by
          rw [hfm, firstOccurrences_append_singleton, if_neg]
          intro h
          exact hmem ((mem_firstOccurrences _ _).mp (List.elem_iff.mp h))
        unfold bucketize
        rw [hlab, List.map_append, List.map_singleton]
        have hbv : bucketOf (repos ++ [r]) f v₀ =
            { version := v₀, pkgs := [some (mkPkg r)] } := by
          rw [bucketOf_append, if_pos (by simp [hfr])]
          have hfilter : repos.filter (fun r' => f r' == some v₀) = [] := by
            rw [List.filter_eq_nil_iff]
            intro r' hr' hbeq
            exact hmem (List.mem_filterMap.mpr
              ⟨r', hr', beq_iff_eq.mp hbeq⟩)
          unfold bucketOf
          rw [hfilter]
          rfl
        rw [hbv]
        congr 1
        apply List.map_congr_left
        intro w hw
        have hwfm : w ∈ repos.filterMap f :=
          (mem_firstOccurrences _ _).mp hw
        have hwv : w ≠ v₀ := by
          intro h
          exact hmem (h ▸ hwfm)
        rw [bucketOf_append, if_neg (by simp [hfr, Ne.symm hwv])]

/-- C10: the filter-and-bucket routine produces the buckets in order of the
first record that introduced each version label, each bucket holding the
packages of its matching records in input order. -/
theorem c10_bucket_order (repos : List RepoRecord)
    (f : RepoRecord → Option String) :
    distroVersionsFromRepologyRepos repos f = bucketize repos f :=
  distroVersions_eq_bucketize f repos

/-- C1: no two DistributionVersion buckets produced by the shared
filter-and-bucket routine share a version label. -/
theorem c1_version_labels_nodup (repos : List RepoRecord)
    (f : RepoRecord → Option String) :
    ((distroVersionsFromRepologyRepos repos f).map
      (fun dv => dv.version)).Nodup := by
  rw [distroVersions_eq_bucketize, bucketize_version_map]
  exact firstOccurrences_nodup _

/-! ## Report column lookup (C5)

`_DistroVersion.pkg` scans the package slots comparing `pkg.name`; when a
slot holds a `None` placeholder (possible for Buildroot rows), the Python
attribute access `pkg.name` raises, embedded as `Except.error ()`. -/

/-- `_DistroVersion.pkg(name)`: first package with the given name, `none`
when the scan falls through, `Except.error ()` when the scan reaches a
`None` placeholder slot. -/
def pkgLookup : List (Option Pkg) → String → Except Unit (Option Pkg)
  | [], _ => Except.ok none
  | some p :: rest, n =>
    if p.name == n then Except.ok (some p) else pkgLookup rest n
  | none :: _, _ => Except.error ()

/-- The alias loop of `distro_version_pkg_version`: try each alias in
order, stopping at the first present package. -/
def dvpLookup (pkgs : List (Option Pkg)) : List String →
    Except Unit (Option Pkg)
  | [] => Except.ok none
  | n :: rest =>
    match pkgLookup pkgs n with
    | Except.error e => Except.error e
    | Except.ok (some p) => Except.ok (some p)
    | Except.ok none => dvpLookup pkgs rest

/-- `distro_version_pkg_version`: the rendered version of the first
package found by the alias loop, or the empty string. -/
def distroVersionPkgVersion (dv : DistroVersion) (pkgNames : List String) :
    Except Unit String :=
  match dvpLookup dv.pkgs pkgNames with
  | Except.error e => Except.error e
  | Except.ok (some p) => Except.ok (versionStr p.version)
  | Except.ok none => Except.ok ""

/-- Specification-level column mapping: the first present package whose
name matches the product's alias list, aliases tried in order. -/
def firstAliasPkg (pkgs : List Pkg) : List String → Option Pkg
  | [] => none
  | n :: rest =>
    match pkgs.find? (fun p => p.name == n) with
    | some p => some p
    | none => firstAliasPkg pkgs rest

/-- C5 counterexample: a DistributionVersion assembled by the Buildroot
builder (primary present, secondary absent) makes the secondary product's
column computation fail instead of yielding the empty string. -/
theorem c5_placeholder_column_fails :
    (brDistroVersion brOracleW6 "2019.02").map
        (fun dv => distroVersionPkgVersion dv
          ["lttng-ust", "ust", "lttng-libust"]) =
      some (Except.error ()) := by
  rfl

theorem pkgLookup_all_present (n : String) :
    ∀ pkgs : List Pkg,
      pkgLookup (pkgs.map some) n =
        Except.ok (pkgs.find? (fun p => p.name == n)) := by
  intro pkgs
  induction pkgs with
  | nil => rfl
  | cons p rest ih =>
    rw [List.map_cons]
    unfold pkgLookup
    by_cases h : (p.name == n) = true
    · rw [if_pos h]
      simp [List.find?, h]
    · rw [if_neg h, ih]
      simp [List.find?, h]

/-- C5 (amended): when every package slot of the DistributionVersion is
present, each product column equals the rendered version string of the
first present package matching the product's alias list (aliases tried in
order), and equals the empty string, without failing, when no package
matches any alias. -/
theorem c5_alias_column (v : String) (pkgs : List Pkg)
    (names : List String) :
    distroVersionPkgVersion (DistroVersion.mk v (pkgs.map some)) names =
      Except.ok (match firstAliasPkg pkgs names with
                 | some p => versionStr p.version
                 | none => "") := by
  unfold distroVersionPkgVersion
  have hloop : dvpLookup (pkgs.map some) names =
      Except.ok (firstAliasPkg pkgs names) := by
    induction names with
    | nil => rfl
    | cons n rest ih =>
      unfold dvpLookup firstAliasPkg
      rw [pkgLookup_all_present n pkgs]
      cases hfind : pkgs.find? (fun p => p.name == n) with
      | some p => rfl
      | none => exact ih
  rw [hloop]
  cases hfind : firstAliasPkg pkgs names with
  | some p => rfl
  | none => rfl

/-! ## Yocto identifier enumeration (C7)

`_yocto_distro` filters the scraped option values through a set of regex
patterns tried with `re.match`, i.e. anchored at the start of the value.
Each pattern is embedded as an anchored matcher on the character list:
`.*-next.*` matches iff "-next" occurs within the first line (`.` does not
cross a newline), `\d.*` iff the value begins with an ASCII digit, and a
literal codename iff it is a prefix of the value. -/

/-- Substring containment on character lists (Python's `in` and the
unanchored part of a regex). -/
def containsSub (pat : List Char) : List Char → Bool
  | [] => pat.isEmpty
  | c :: rest => startsWithList pat (c :: rest) || containsSub pat rest

/-- Anchored match of the blacklist pattern `.*-next.*`. -/
def reNextPat (v : List Char) : Bool :=
  containsSub "-next".data (v.takeWhile (fun c => c ≠ '\n'))

/-- Anchored match of the blacklist pattern `\d.*`. -/
def reDigitPat : List Char → Bool
  | [] => false
  | c :: _ => c.isDigit

/-- The literal codenames of the blacklist set. -/
def yoctoCodenames : List String :=
  ["daisy", "danny", "denzil", "dizzy", "dora", "dylan", "fido", "jethro",
   "krogoth", "master", "morty", "pyro", "rocko", "sumo"]

/-- The anchored matchers of `yocto_version_blacklist`, one per pattern. -/
def yoctoBlacklistMatchers : List (List Char → Bool) :=
  [reNextPat, reDigitPat,
   startsWithList "daisy".data, startsWithList "danny".data,
   startsWithList "denzil".data, startsWithList "dizzy".data,
   startsWithList "dora".data, startsWithList "dylan".data,
   startsWithList "fido".data, startsWithList "jethro".data,
   startsWithList "krogoth".data, startsWithList "master".data,
   startsWithList "morty".data, startsWithList "pyro".data,
   startsWithList "rocko".data, startsWithList "sumo".data]

/-- The inner validity loop of `_yocto_distro`: a value is invalid iff some
blacklist pattern matches it (anchored). -/
def yoctoBlacklisted (v : String) : Bool :=
  yoctoBlacklistMatchers.any (fun m => m v.data)

/-- The enumeration loop of `_yocto_distro`: keep valid option values, in
document order. -/
def yoctoValidVersions (opts : List String) : List String :=
  opts.foldl (fun acc v => if yoctoBlacklisted v then acc else acc ++ [v]) []

/-- Specification-level denylist predicate: a value is denied iff it begins
with a digit, or carries a "-next" marker (in its first line, since the
matching is line-bound), or has one of the listed codenames as an anchored
prefix. -/
def yoctoDenySpec (v : String) : Bool :=
  reDigitPat v.data ||
    containsSub "-next".data (v.data.takeWhile (fun c => c ≠ '\n')) ||
    yoctoCodenames.any (fun c => startsWithList c.data v.data)

theorem yoctoValidVersions_aux (opts : List String) :
    ∀ acc : List String,
      opts.foldl (fun acc v => if yoctoBlacklisted v then acc
        else acc ++ [v]) acc =
      acc ++ opts.filter (fun v => ! yoctoBlacklisted v) := by
  induction opts with
  | nil => intro acc; simp
  | cons x t ih =>
    intro acc
    rw [List.foldl_cons]
    by_cases hx : yoctoBlacklisted x = true
    · rw [if_pos hx, ih, List.filter_cons, if_neg (by simp [hx])]
    · rw [if_neg hx, ih, List.filter_cons,
        if_pos (by simp [Bool.not_eq_true _ ▸ hx]), List.append_assoc]
      rfl

theorem yoctoBlacklisted_eq_spec (v : String) :
    yoctoBlacklisted v = yoctoDenySpec v := by
  unfold yoctoBlacklisted yoctoBlacklistMatchers yoctoDenySpec reNextPat
  unfold yoctoCodenames
  cases h2 : reDigitPat v.data <;>
    cases h3 : containsSub "-next".data
      (v.data.takeWhile (fun c => c ≠ '\n')) <;>
    (simp only [ne_eq, decide_not] at h3 ⊢;
     simp [h2, h3, List.any_cons, Bool.or_assoc])

/-- C7: enumeration retains exactly the values no anchored denylist
pattern matches, in document order; the denylist is characterised by the
specification predicate, which excludes "3.1.4" (digit start) and "sumo"
(listed codename) and retains "zeus". -/
theorem c7_yocto_denylist :
    (∀ v, yoctoBlacklisted v = yoctoDenySpec v) ∧
    (∀ opts, yoctoValidVersions opts =
      opts.filter (fun v => ! yoctoDenySpec v)) ∧
    yoctoDenySpec "3.1.4" = true ∧ yoctoDenySpec "sumo" = true ∧
    yoctoDenySpec "zeus" = false := by
    refine ⟨yoctoBlacklisted_eq_spec, ?_, by decide, by decide, by decide⟩
    · intro opts
      have h := yoctoValidVersions_aux opts []
      rw [List.nil_append] at h
      rw [yoctoValidVersions, h]
      apply List.filter_congr
      intro v _
      rw [yoctoBlacklisted_eq_spec]

/-! ## Buildroot recipe field extraction (C4)

The `pkg` closure of `_buildroot_distro` runs, on the fetched recipe body,
first the containment test `'Invalid branch' in mk.text`, then
`re.search(r'^LTTNG_.+_VERSION\s+=\s+([^\s]+)', mk.text, re.M)` followed by
`m.group(1)`.  The regular expression is embedded by a direct matcher:
`^` (multiline) anchors at the string start or after a newline, `.` never
matches a newline, `\s` is ASCII whitespace, `+` is greedy with
backtracking, and the search returns the match at the leftmost anchored
position.  When the search finds nothing, `m.group(1)` raises an
`AttributeError`, embedded as `Except.error ()`. -/

/-- ASCII whitespace characters matched by Python's `\s`. -/
def isPySpace (c : Char) : Bool :=
  c == ' ' || c == '\t' || c == '\n' || c == '\r' ||
    c == '\x0b' || c == '\x0c'

/-- Match `\s+=\s+([^\s]+)` at the head of the character list and return
the capture.  Each greedy repetition here is deterministic: the character
following the whitespace runs and the captured run are delimited by
character classes. -/
def matchAfterVersion (cs : List Char) : Option String :=
  if (cs.takeWhile isPySpace).isEmpty then none
  else
    match cs.dropWhile isPySpace with
    | '=' :: cs2 =>
      if (cs2.takeWhile isPySpace).isEmpty then none
      else
        if (((cs2.dropWhile isPySpace).takeWhile
            (fun c => ! isPySpace c))).isEmpty then none
        else some (String.mk ((cs2.dropWhile isPySpace).takeWhile
          (fun c => ! isPySpace c)))
    | _ => none

/-- Match `_VERSION\s+=\s+([^\s]+)` at the head of the character list. -/
def matchTailAt (cs : List Char) : Option String :=
  if startsWithList "_VERSION".data cs then matchAfterVersion (cs.drop 8)
  else none

/-- Match `.+_VERSION\s+=\s+([^\s]+)` at the head of the character list:
consume at least one non-newline character, preferring the longest
consumption (greedy `.+` with backtracking). -/
def matchDotPlus : List Char → Option String
  | [] => none
  | c :: rest =>
    if c == '\n' then none
    else
      match matchDotPlus rest with
      | some v => some v
      | none => matchTailAt rest

/-- Match the full pattern `LTTNG_.+_VERSION\s+=\s+([^\s]+)` at the head
of the character list. -/
def matchKeyAt (cs : List Char) : Option String :=
  if startsWithList "LTTNG_".data cs then matchDotPlus (cs.drop 6)
  else none

/-- `re.search` with the multiline `^` anchor: try the pattern at every
position that starts the string or follows a newline, leftmost first. -/
def regexSearchAux : List Char → Bool → Option String
  | [], _ => none
  | c :: rest, atStart =>
    match (if atStart then matchKeyAt (c :: rest) else none) with
    | some v => some v
    | none => regexSearchAux rest (c == '\n')

/-- `re.search(r'^LTTNG_.+_VERSION\s+=\s+([^\s]+)', text, re.M)`, returning
the captured group. -/
def lttngVersionSearch (text : String) : Option String :=
  regexSearchAux text.data true

/-- Substring containment on strings (Python's `in`). -/
def containsSubstr (pat s : String) : Bool :=
  containsSub pat.data s.data

/-- The body of the `pkg` closure of `_buildroot_distro` after the fetch:
the invalid-reference marker yields `None` (absent upstream), a successful
search yields the package, and a failed search raises (`m.group(1)` on
`None`). -/
def pkgOfText (name text : String) : Except Unit (Option Pkg) :=
  if containsSubstr "Invalid branch" text then Except.ok none
  else
    match lttngVersionSearch text with
    | some v => Except.ok (some { name := name, version := parseVersion v })
    | none => Except.error ()

/-- Declarative reading of a successful extraction: the text decomposes as
an anchored line-start, the key `LTTNG_<mid>_VERSION`, whitespace, `=`,
whitespace, and the whitespace-free captured value. -/
def LineMatch (text v : String) : Prop :=
  ∃ pre mid ws1 ws2 post,
    text.data = pre ++ ("LTTNG_".data ++ (mid ++ ("_VERSION".data ++
      (ws1 ++ ('=' :: (ws2 ++ (v.data ++ post))))))) ∧
    (pre = [] ∨ ∃ q, pre = q ++ ['\n']) ∧
    mid ≠ [] ∧ (∀ c ∈ mid, ¬ c = '\n') ∧
    ws1 ≠ [] ∧ (∀ c ∈ ws1, isPySpace c = true) ∧
    ws2 ≠ [] ∧ (∀ c ∈ ws2, isPySpace c = true) ∧
    v.data ≠ [] ∧ (∀ c ∈ v.data, isPySpace c = false)

theorem startsWithList_sound :
    ∀ (p l : List Char), startsWithList p l = true →
      l = p ++ l.drop p.length := by
  intro p
  induction p with
  | nil => intro l _; rfl
  | cons a ps ih =>
    intro l h
    cases l with
    | nil => exact absurd h (by simp [startsWithList])
    | cons c cs =>
      unfold startsWithList at h
      rw [Bool.and_eq_true] at h
      have hac : a = c := beq_iff_eq.mp h.1
      have := ih cs h.2
      rw [List.length_cons, List.drop_succ_cons, hac]
      exact congrArg (c :: ·) this

theorem matchAfterVersion_sound (cs : List Char) (v : String)
    (h : matchAfterVersion cs = some v) :
    ∃ ws1 ws2 post,
      cs = ws1 ++ ('=' :: (ws2 ++ (v.data ++ post))) ∧
      ws1 ≠ [] ∧ (∀ c ∈ ws1, isPySpace c = true) ∧
      ws2 ≠ [] ∧ (∀ c ∈ ws2, isPySpace c = true) ∧
      v.data ≠ [] ∧ (∀ c ∈ v.data, isPySpace c = false) := by
  unfold matchAfterVersion at h
  split at h
  · exact absurd h (by simp)
  next h1 =>
    split at h
    next cs2 heq =>
      split at h
      · exact absurd h (by simp)
      next h2 =>
        split at h
        · exact absurd h (by simp)
        next h3 =>
          have hv : v.data =
              (cs2.dropWhile isPySpace).takeWhile (fun c => ! isPySpace c) := by
            have := Option.some.inj h
            rw [← this]
          refine ⟨cs.takeWhile isPySpace, cs2.takeWhile isPySpace,
            (cs2.dropWhile isPySpace).dropWhile (fun c => ! isPySpace c),
            ?_, ?_, ?_, ?_, ?_, ?_, ?_⟩
          · conv_lhs => rw [← List.takeWhile_append_dropWhile (p := isPySpace) (l := cs)]
            rw [heq]
            congr 1
            conv_lhs => rw [← List.takeWhile_append_dropWhile (p := isPySpace) (l := cs2)]
            congr 1
            conv_lhs => rw [← List.takeWhile_append_dropWhile
              (p := fun c => ! isPySpace c) (l := cs2.dropWhile isPySpace)]
            rw [hv]
          · intro hnil; exact h1 (by simp [hnil])
          · intro c hc; exact List.mem_takeWhile_imp hc
          · intro hnil; exact h2 (by simp [hnil])
          · intro c hc; exact List.mem_takeWhile_imp hc
          · intro hnil; rw [hv] at hnil; exact h3 (by simp [hnil])
          · intro c hc
            rw [hv] at hc
            have := List.mem_takeWhile_imp hc
            simpa using this
    next => exact absurd h (by simp)

theorem matchTailAt_sound (cs : List Char) (v : String)
    (h : matchTailAt cs = some v) :
    ∃ rest, cs = "_VERSION".data ++ rest ∧
      matchAfterVersion rest = some v := by
  unfold matchTailAt at h
  split at h
  next hsw => exact ⟨cs.drop 8, startsWithList_sound _ _ hsw, h⟩
  next => exact absurd h (by simp)

theorem matchDotPlus_sound :
    ∀ (cs : List Char) (v : String), matchDotPlus cs = some v →
      ∃ mid rest, cs = mid ++ ("_VERSION".data ++ rest) ∧ mid ≠ [] ∧
        (∀ c ∈ mid, ¬ c = '\n') ∧ matchAfterVersion rest = some v := by
  intro cs
  induction cs with
  | nil => intro v h; exact absurd h (by simp [matchDotPlus])
  | cons c t ih =>
    intro v h
    unfold matchDotPlus at h
    split at h
    · exact absurd h (by simp)
    next hc =>
      split at h
      next v' hrec =>
        obtain ⟨mid, rest, hsplit, hne, hnl, hmav⟩ := ih v' hrec
        refine ⟨c :: mid, rest, ?_, by simp, ?_, hmav.trans h⟩
        · rw [List.cons_append, ← hsplit]
        · intro d hd
          rcases List.mem_cons.mp hd with rfl | hd
          · intro hEq; rw [hEq] at hc; exact hc (by simp)
          · exact hnl d hd
      next hrec =>
        obtain ⟨rest, hsw, hmav⟩ := matchTailAt_sound t v h
        refine ⟨[c], rest, by simp [hsw], by simp, ?_, hmav⟩
        intro d hd
        rcases List.mem_singleton.mp hd with rfl
        intro hEq; rw [hEq] at hc; exact hc (by simp)

theorem matchKeyAt_sound (cs : List Char) (v : String)
    (h : matchKeyAt cs = some v) :
    ∃ t, cs = "LTTNG_".data ++ t ∧ matchDotPlus t = some v := by
  unfold matchKeyAt at h
  split at h
  next hsw => exact ⟨cs.drop 6, startsWithList_sound _ _ hsw, h⟩
  next => exact absurd h (by simp)

theorem regexSearchAux_sound :
    ∀ (cs : List Char) (b : Bool) (v : String),
      regexSearchAux cs b = some v →
      ∃ pre rest, cs = pre ++ rest ∧ matchKeyAt rest = some v ∧
        ((pre = [] ∧ b = true) ∨ ∃ q, pre = q ++ ['\n']) := by
  intro cs
  induction cs with
  | nil => intro b v h; exact absurd h (by simp [regexSearchAux])
  | cons c rest ih =>
    intro b v h
    unfold regexSearchAux at h
    split at h
    next v' hv' =>
      cases b with
      | false => simp at hv'
      | true =>
        rw [if_pos rfl] at hv'
        exact ⟨[], c :: rest, rfl, hv'.trans h, Or.inl ⟨rfl, rfl⟩⟩
    next hnone =>
      obtain ⟨pre1, r1, hsplit, hkey, hpre⟩ := ih (c == '\n') v h
      refine ⟨c :: pre1, r1, by rw [List.cons_append, ← hsplit], hkey, ?_⟩
      rcases hpre with ⟨hnil, hb⟩ | ⟨q, hq⟩
      · right
        refine ⟨[], ?_⟩
        rw [hnil, List.nil_append]
        have : c = '\n' := beq_iff_eq.mp hb
        rw [this]
      · right; exact ⟨c :: q, by rw [hq, List.cons_append]⟩

theorem lttngVersionSearch_sound (text v : String)
    (h : lttngVersionSearch text = some v) : LineMatch text v := by
  obtain ⟨pre, rest, hsplit, hkey, hpre⟩ :=
    regexSearchAux_sound text.data true v h
  obtain ⟨t, ht, hdp⟩ := matchKeyAt_sound rest v hkey
  obtain ⟨mid, rest2, hmid, hmidne, hmidnl, hafter⟩ :=
    matchDotPlus_sound t v hdp
  obtain ⟨ws1, ws2, post, hws, hws1ne, hws1, hws2ne, hws2, hvne, hv⟩ :=
    matchAfterVersion_sound rest2 v hafter
  refine ⟨pre, mid, ws1, ws2, post, ?_, ?_, hmidne, hmidnl, hws1ne, hws1,
    hws2ne, hws2, hvne, hv⟩
  · rw [hsplit, ht, hmid, hws]
  · rcases hpre with ⟨hnil, _⟩ | h2
    · exact Or.inl hnil
    · exact Or.inr h2

/-- C4 counterexample: a recipe body with neither the invalid-reference
marker nor a matching version line makes the extraction raise
(`m.group(1)` on a failed search) instead of reporting a non-error "not
found". -/
theorem c4_no_match_raises :
    pkgOfText "lttng-tools" "# recipe without the key\nFOO = bar\n" =
      Except.error () := by rfl

/-- C4 (amended): on any recipe body, the extraction yields exactly one of
three outcomes: the invalid-reference marker is reported as a non-error
"does not exist upstream"; otherwise a successful multiline anchored
search returns the whitespace-free captured value of a
`LTTNG_*_VERSION \s = \s VALUE` line; and a body with neither is a raised
parse failure, not a non-error "not found". -/
theorem c4_field_extraction (name text : String) :
    (containsSubstr "Invalid branch" text = true ∧
      pkgOfText name text = Except.ok none) ∨
    (containsSubstr "Invalid branch" text = false ∧
      ∃ v, lttngVersionSearch text = some v ∧
        pkgOfText name text =
          Except.ok (some { name := name, version := parseVersion v }) ∧
        LineMatch text v) ∨
    (containsSubstr "Invalid branch" text = false ∧
      lttngVersionSearch text = none ∧
      pkgOfText name text = Except.error ()) := by
  by_cases hm : containsSubstr "Invalid branch" text = true
  · left
    refine ⟨hm, ?_⟩
    unfold pkgOfText
    rw [if_pos hm]
  · have hm' : containsSubstr "Invalid branch" text = false := by
      simpa using hm
    cases hs : lttngVersionSearch text with
    | some v =>
      right; left
      refine ⟨hm', v, rfl, ?_, lttngVersionSearch_sound text v hs⟩
      unfold pkgOfText
      rw [if_neg hm, hs]
    | none =>
      right; right
      refine ⟨hm', rfl, ?_⟩
      unfold pkgOfText
      rw [if_neg hm, hs]
